import Mathlib

/-!
Verification model of the jill lock-free ringbuffer and period ringbuffer
(`src/jill/ringbuffer.hh`, `period_ringbuffer.cc`) and of the JILL trigger
gate.  Machine `size_type` (64-bit unsigned) arithmetic is modelled as `Nat`
with an explicit `% 2^64` where C unsigned wrap-around matters; the bit-mask
`x & _size_mask` of the C code equals `x % size` because the constructor
makes `size` a power of two, and is embedded as `% size`.
-/

namespace JillModel

/-- 2^64, the modulus of the C `size_type` (`std::size_t`). -/
def u64 : Nat := 2 ^ 64

/-- Write the elements of `xs` at consecutive positions `pos, pos+1, ...` of
`buf` (models a non-wrapping `std::copy`/`memcpy` run into the backing
array; out-of-range positions are dropped, as a bounds-faithful model never
reaches them). -/
def writeRun {α : Type} (buf : List α) (pos : Nat) (xs : List α) : List α :=
  match xs with
  | [] => buf
  | x :: rest => writeRun (buf.set pos x) (pos + 1) rest

/-- State of `jill::Ringbuffer<T>` (src/jill/ringbuffer.hh): backing array
`buf` of length `size` (a power of two), write index `wptr` and read index
`rptr`, both kept reduced modulo `size` by the code's `& _size_mask`. -/
structure RB (α : Type) where
  size : Nat
  buf  : List α
  wptr : Nat
  rptr : Nat
deriving DecidableEq, Repr

/-- Fuel-bounded embedding of the constructor loop
`for (power_of_two = 1; 1U << power_of_two < size; power_of_two++);`
64 iterations suffice for any size representable in `size_type`. -/
def capExpAux : Nat → Nat → Nat → Nat
  | 0, _, p => p
  | fuel + 1, n, p => if 2 ^ p < n then capExpAux fuel n (p + 1) else p

/-- Exponent of the power-of-two capacity chosen by `Ringbuffer(size)`.
63 iterations of fuel keep the exponent within the 64-bit `size_type` (the
C loop shifts a 32-bit `1U` and has left representable sizes long before
that bound). -/
def capExp (n : Nat) : Nat := capExpAux 63 n 1

/-- `Ringbuffer<T>::Ringbuffer(size)`: capacity `2^capExp size`, both
indices zero.  `new data_type[_size]` leaves POD contents indeterminate,
modelled by an arbitrary fill element `init`. -/
def mkRB {α : Type} (n : Nat) (init : α) : RB α :=
  let sz := 2 ^ capExp n
  ⟨sz, List.replicate sz init, 0, 0⟩

/-- `Ringbuffer<T>::read_space()` (ringbuffer.hh lines 185-198). -/
def read_space {α : Type} (s : RB α) : Nat :=
  if s.wptr > s.rptr then s.wptr - s.rptr
  else if s.wptr < s.rptr then ((s.wptr + u64 - s.rptr + s.size) % u64) % s.size
  else 0

/-- `Ringbuffer<T>::write_space()` (ringbuffer.hh lines 200-213). -/
def write_space {α : Type} (s : RB α) : Nat :=
  if s.wptr > s.rptr then ((s.rptr + u64 - s.wptr + s.size) % u64) % s.size - 1
  else if s.wptr < s.rptr then (s.rptr - s.wptr) - 1
  else s.size - 1

/-- `Ringbuffer<T>::push(src, cnt)` (ringbuffer.hh lines 235-263): copy up
to `min cnt (write_space)` elements in at most two contiguous runs, advance
the write index, return the number written. -/
def rbPush {α : Type} (s : RB α) (src : List α) (cnt : Nat) : RB α × Nat :=
  let free := write_space s
  if free = 0 then (s, 0)
  else
    let to_write := if cnt > free then free else cnt
    let cnt2 := s.wptr + to_write
    let n1 := if cnt2 > s.size then s.size - s.wptr else to_write
    let n2 := if cnt2 > s.size then cnt2 % s.size else 0
    let buf1 := writeRun s.buf s.wptr (src.take n1)
    let w1 := (s.wptr + n1) % s.size
    if n2 = 0 then ({ s with buf := buf1, wptr := w1 }, to_write)
    else
      let buf2 := writeRun buf1 w1 ((src.drop n1).take n2)
      ({ s with buf := buf2, wptr := (w1 + n2) % s.size }, to_write)

/-- `Ringbuffer<T>::pop(visitor, cnt)` (ringbuffer.hh lines 290-316): the
visitor is handed one or two contiguous runs; the list of runs, the return
value `to_read`, and the new state are returned. -/
def popRuns {α : Type} (s : RB α) (cnt : Nat) : List (List α) × Nat × RB α :=
  let to_read := if cnt = 0 then read_space s else min (read_space s) cnt
  if to_read = 0 then ([], 0, s)
  else
    let cnt2 := s.rptr + to_read
    let n1 := if cnt2 > s.size then s.size - s.rptr else to_read
    let n2 := if cnt2 > s.size then cnt2 % s.size else 0
    let run1 := (s.buf.drop s.rptr).take n1
    let r1 := (s.rptr + n1) % s.size
    if n2 = 0 then ([run1], to_read, { s with rptr := r1 })
    else
      let run2 := (s.buf.drop r1).take n2
      ([run1, run2], to_read, { s with rptr := (r1 + n2) % s.size })

/-- `Ringbuffer<T>::pop(dest, cnt)` (ringbuffer.hh lines 282-288): delegates
to the visitor form with `detail::memcopier`, whose `operator()` copies each
run to `_dest` WITHOUT advancing `_dest` (ringbuffer.hh lines 267-278) —
embedded faithfully: every run is written at offset 0 of `dest`. -/
def popDest {α : Type} (s : RB α) (dest : List α) (cnt : Nat) :
    List α × Nat × RB α :=
  let (runs, ret, s') := popRuns s cnt
  (runs.foldl (fun d run => writeRun d 0 run) dest, ret, s')

/-- `Ringbuffer<T>::advance(cnt)` (ringbuffer.hh lines 215-222). -/
def rbAdvance {α : Type} (s : RB α) (cnt : Nat) : RB α × Nat :=
  let k := if cnt = 0 then read_space s else min (read_space s) cnt
  ({ s with rptr := (s.rptr + k) % s.size }, k)

/-- `Ringbuffer<T>::flush(cnt)` (ringbuffer.hh lines 224-233):
`to_flush = read_space() - cnt` is computed in unsigned 64-bit arithmetic
(wrapping below zero), and the test `to_flush <= 0` only catches the value
0. -/
def rbFlush {α : Type} (s : RB α) (cnt : Nat) : RB α × Nat :=
  let to_flush := (read_space s + u64 - cnt % u64) % u64
  if to_flush = 0 then (s, 0)
  else ({ s with rptr := ((s.rptr + to_flush) % u64) % s.size }, to_flush)

/-- One reader/writer operation on the ringbuffer, for quiescent-point
sequences. -/
inductive Op (α : Type) where
  | push (src : List α) (cnt : Nat)
  | popd (cnt : Nat)
  | popv (cnt : Nat)
  | adv (cnt : Nat)
  | fl (cnt : Nat)

/-- State effect of one operation (the destination/visitor of a pop does not
influence the buffer state). -/
def step {α : Type} (s : RB α) : Op α → RB α
  | .push src cnt => (rbPush s src cnt).1
  | .popd cnt => (popRuns s cnt).2.2
  | .popv cnt => (popRuns s cnt).2.2
  | .adv cnt => (rbAdvance s cnt).1
  | .fl cnt => (rbFlush s cnt).1

/-- Run a sequence of operations from a state. -/
def run {α : Type} (s : RB α) (ops : List (Op α)) : RB α :=
  ops.foldl step s

/-- Well-formedness of a ringbuffer state: the backing array has length
`size`, both indices are reduced, the size is positive and representable in
`size_type`. -/
def WF {α : Type} (s : RB α) : Prop :=
  s.buf.length = s.size ∧ s.wptr < s.size ∧ s.rptr < s.size ∧ 0 < s.size
    ∧ s.size ≤ u64

/-! ## period_ringbuffer (period_ringbuffer.cc)

The class declaration (`period_ringbuffer.hh`, with `period_info_t`,
`bytes_per_channel()`, `buffer()`, `write_offset()`, `read_offset()` and the
byte-oriented superclass) is not part of the sources; those pieces are
modelled from the spec.  The member function bodies below follow
`period_ringbuffer.cc` (src/unnamed/part_001) exactly. -/

/-- Modelled from the spec: `period_info_t`, the period header — `time`
(frame counter), `nbytes` (bytes per channel), `nchannels` (channel count)
(spec §3 "Period"); the concrete C layout is not in the sources. -/
structure PInfo where
  time : Nat
  nbytes : Nat
  nchannels : Nat
deriving DecidableEq, Repr

/-- Modelled from the spec: one cell of the byte-oriented backing store of
the period ringbuffer.  A header occupies `headerSize` cells (the first
carries the decoded record, the rest are padding), a sample payload byte is
a `samp` cell, untouched storage is `uninit` (`new char[n]` leaves it
indeterminate). -/
inductive Cell where
  | uninit
  | pad
  | samp (v : Int)
  | hd (h : PInfo)
deriving DecidableEq, Repr

/-- Modelled from the spec: `sizeof(period_info_t)` — a positive constant;
only its positivity and additivity in offsets matter to the protocol. -/
def headerSize : Nat := 16

/-- Modelled from the spec: `sizeof(sample_t)` in backing-store cells.  The
spec (§3) stores each channel as `nbytes` contiguous payload bytes, so one
sample cell represents one payload byte. -/
def sampleSize : Nat := 1

/-- Decode the header at offset `off` (`reinterpret_cast<period_info_t*>`):
yields junk (the zero record) when no header was written there. -/
def hdrAt (buf : List Cell) (off : Nat) : PInfo :=
  match buf[off]? with
  | some (.hd h) => h
  | _ => ⟨0, 0, 0⟩

/-- Write a header record at offset `off` (the in-place header store of
`reserve`). -/
def writeHdr (buf : List Cell) (off : Nat) (h : PInfo) : List Cell :=
  writeRun buf off (Cell.hd h :: List.replicate (headerSize - 1) Cell.pad)

/-- Outcome of a `period_ringbuffer` member call: a value, or a thrown
`std::logic_error`. -/
inductive PRes (α : Type) where
  | ok (a : α)
  | logicError
deriving DecidableEq, Repr

/-- State of `jill::dsp::period_ringbuffer`: the byte ring (superclass) plus
`_read_hdr` / `_write_hdr` (modelled as the offsets the header pointers
point at) and the two owed-channel counters. -/
structure PRB where
  ring : RB Cell
  read_hdr : Option Nat
  write_hdr : Option Nat
  chans_to_read : Nat
  chans_to_write : Nat
deriving DecidableEq, Repr

/-- `period_ringbuffer::period_ringbuffer(size)`: delegates to the
superclass constructor (modelled from the spec as the same power-of-two
primitive), with no reservation or request outstanding. -/
def mkPRB (n : Nat) : PRB :=
  ⟨mkRB n Cell.uninit, none, none, 0, 0⟩

/-- `period_ringbuffer::reserve(time, nbytes, nchannels)`
(period_ringbuffer.cc lines 25-41). -/
def reserve (s : PRB) (time nbytes nchannels : Nat) : PRes Nat × PRB :=
  if s.chans_to_write ≠ 0 ∨ s.write_hdr ≠ none then (.logicError, s)
  else
    let chunk_size := headerSize + nbytes * nchannels * sampleSize
    let chunks_avail := write_space s.ring / chunk_size
    if chunks_avail < 1 then (.ok 0, s)
    else
      (.ok chunks_avail,
       { s with
          ring := { s.ring with
                      buf := writeHdr s.ring.buf s.ring.wptr ⟨time, nbytes, nchannels⟩ },
          write_hdr := some s.ring.wptr,
          chans_to_write := nchannels })

/-- The state effect of `super::push(0, n)` in `period_ringbuffer::push`.
Modelled from the spec: the superclass push with a null source advances the
write pointer (clamped like `Ringbuffer::push`) without copying. -/
def rbPushAdvance (r : RB Cell) (n : Nat) : RB Cell :=
  { r with wptr := (r.wptr + min n (write_space r)) % r.size }

/-- `period_ringbuffer::push(src)` (period_ringbuffer.cc lines 49-63): copy
one channel's payload into the reserved period; on the last owed channel,
advance the superclass write pointer past the whole period. -/
def pushPRB (s : PRB) (src : List Int) : PRes Unit × PRB :=
  if s.chans_to_write = 0 ∨ s.write_hdr = none then (.logicError, s)
  else
    let h := hdrAt s.ring.buf (s.write_hdr.getD 0)
    let bpc := h.nbytes * sampleSize
    let off := s.ring.wptr + headerSize + bpc * (h.nchannels - s.chans_to_write)
    let buf1 := writeRun s.ring.buf off ((src.take bpc).map Cell.samp)
    let ctw := s.chans_to_write - 1
    if ctw = 0 then
      let ring1 := rbPushAdvance { s.ring with buf := buf1 }
                     (h.nchannels * bpc + headerSize)
      (.ok (), { s with ring := ring1, write_hdr := none, chans_to_write := 0 })
    else
      (.ok (), { s with ring := { s.ring with buf := buf1 }, chans_to_write := ctw })

/-- `period_ringbuffer::request()` (period_ringbuffer.cc lines 65-76). -/
def request (s : PRB) : PRes (Option PInfo) × PRB :=
  if s.chans_to_read ≠ 0 ∨ s.read_hdr ≠ none then (.logicError, s)
  else if read_space s.ring = 0 then (.ok none, s)
  else
    let h := hdrAt s.ring.buf s.ring.rptr
    (.ok (some h), { s with read_hdr := some s.ring.rptr, chans_to_read := h.nchannels })

/-- The state effect of `super::pop(0, n)` in `period_ringbuffer::pop`.
Modelled from the spec: the superclass pop with a null destination advances
the read pointer (clamped like `Ringbuffer::pop`) without copying. -/
def rbPopAdvance (r : RB Cell) (n : Nat) : RB Cell :=
  { r with rptr := (r.rptr + min n (read_space r)) % r.size }

/-- `period_ringbuffer::pop(dest)` (period_ringbuffer.cc lines 84-99),
embedded faithfully INCLUDING the source's advance condition
`if (_chans_to_write == 0)` and its `_write_hdr = 0` reset: the data copied
out is the channel slice at the CURRENT read offset, while the header fields
come from the stored `_read_hdr` pointer. -/
def popPRB (s : PRB) : PRes (List Cell) × PRB :=
  if s.chans_to_read = 0 ∨ s.read_hdr = none then (.logicError, s)
  else
    let h := hdrAt s.ring.buf (s.read_hdr.getD 0)
    let bpc := h.nbytes * sampleSize
    let off := s.ring.rptr + headerSize + bpc * (h.nchannels - s.chans_to_read)
    let out := (s.ring.buf.drop off).take bpc
    let ctr := s.chans_to_read - 1
    if s.chans_to_write = 0 then
      let ring1 := rbPopAdvance s.ring (h.nchannels * bpc + headerSize)
      (.ok out, { s with ring := ring1, chans_to_read := ctr, write_hdr := none })
    else
      (.ok out, { s with chans_to_read := ctr })

/-- `period_ringbuffer::pop(visitor)` (period_ringbuffer.cc lines 102-116):
same state effect as the copy form; the visitor receives the data slice, its
length, and the channel index `nchannels - chans_to_read`. -/
def popVisPRB (s : PRB) : PRes (List Cell × Nat × Nat) × PRB :=
  if s.chans_to_read = 0 ∨ s.read_hdr = none then (.logicError, s)
  else
    let h := hdrAt s.ring.buf (s.read_hdr.getD 0)
    let bpc := h.nbytes * sampleSize
    let off := s.ring.rptr + headerSize + bpc * (h.nchannels - s.chans_to_read)
    let out := (s.ring.buf.drop off).take bpc
    let ctr := s.chans_to_read - 1
    if s.chans_to_write = 0 then
      let ring1 := rbPopAdvance s.ring (h.nchannels * bpc + headerSize)
      (.ok (out, bpc, h.nchannels - s.chans_to_read),
       { s with ring := ring1, chans_to_read := ctr, write_hdr := none })
    else
      (.ok (out, bpc, h.nchannels - s.chans_to_read),
       { s with chans_to_read := ctr })

/-! ## Trigger gate (JILL.h)

`JILL.h` (src/src/JILL.h) only declares `JILL_trigger_calc_new_state` and
`trigger_data_t`; the implementation file is not among the sources.  The
update step is therefore modelled from the spec (§4.4). -/

/-- Modelled from the spec: trigger state (`trigger_data_t`): gate flag,
thresholds, crossing-count thresholds, the two circular histories with
their cursors.  The window lengths `buffers_per_*_window` are the history
lengths. -/
structure Trigger where
  isOpen : Bool
  openThreshold : Nat
  closeThreshold : Nat
  crossingsPerOpenWindow : Nat
  crossingsPerCloseWindow : Nat
  nopenCrossings : List Nat
  ncloseCrossings : List Nat
  openIdx : Nat
  closeIdx : Nat
deriving DecidableEq, Repr

/-- Modelled from the spec: `JILL_trigger_get_crossings(threshold, buf, n)`
— the number of sample events where the signal's magnitude passes the
threshold (level transition between consecutive samples), spec §4.4 and
glossary "Crossing". -/
def countCrossings (th : Nat) (buf : List Int) : Nat :=
  (buf.zip buf.tail).countP
    (fun p => decide (p.1.natAbs < th) != decide (p.2.natAbs < th))

/-- Modelled from the spec: `JILL_trigger_calc_new_state(trigger, buf, n)`
(spec §4.4 `update`): count crossings against the current state's
threshold, overwrite the current state's circular history at its cursor,
advance that cursor modulo the window length, sum the window, and apply the
open/close decision rule.  Returns the updated trigger and the (possibly
unchanged) state. -/
def triggerUpdate (tg : Trigger) (buf : List Int) : Trigger × Bool :=
  if tg.isOpen then
    let c := countCrossings tg.closeThreshold buf
    let hist := tg.ncloseCrossings.set tg.closeIdx c
    let idx1 := (tg.closeIdx + 1) % tg.ncloseCrossings.length
    let stay : Bool := decide (tg.crossingsPerCloseWindow ≤ hist.sum)
    ({ tg with ncloseCrossings := hist, closeIdx := idx1, isOpen := stay }, stay)
  else
    let c := countCrossings tg.openThreshold buf
    let hist := tg.nopenCrossings.set tg.openIdx c
    let idx1 := (tg.openIdx + 1) % tg.nopenCrossings.length
    let go : Bool := decide (tg.crossingsPerOpenWindow ≤ hist.sum)
    ({ tg with nopenCrossings := hist, openIdx := idx1, isOpen := go }, go)

/-! ## Concrete traces used to evaluate the code at failing inputs -/

/-- A `Ringbuffer<int>(4)` brought to `wptr = rptr = 3` (push 3, advance 3)
and then pushed `[1, 2]`, so that the pending data wraps the end of the
backing array. -/
def rbWrapState : RB Nat :=
  (rbPush (rbAdvance (rbPush (mkRB 4 0) [9, 9, 9] 3).1 3).1 [1, 2] 2).1

/-- A `period_ringbuffer(64)` after `reserve(time=0, nbytes=2, nchannels=2)`. -/
def prbStage1 : PRB := (reserve (mkPRB 64) 0 2 2).2

/-- ... after pushing channel 0's payload `[1, 2]`. -/
def prbStage2 : PRB := (pushPRB prbStage1 [1, 2]).2

/-- ... after pushing channel 1's payload `[3, 4]` (period complete). -/
def prbStage3 : PRB := (pushPRB prbStage2 [3, 4]).2

/-- ... after `request()` returned the period header. -/
def prbStage4 : PRB := (request prbStage3).2

/-- First `pop(dest)` of the requested two-channel period. -/
def prbPop1 : PRes (List Cell) × PRB := popPRB prbStage4

/-- Second `pop(dest)` of the requested two-channel period. -/
def prbPop2 : PRes (List Cell) × PRB := popPRB prbPop1.2

/-- A period ringbuffer state with a reservation and a request both
outstanding (one owed channel on each side): every further
`reserve`/`push`-completion/`request` call is out of protocol. -/
def prbFaultState : PRB :=
  { ring := mkRB 8 Cell.uninit, read_hdr := none, write_hdr := none,
    chans_to_read := 1, chans_to_write := 1 }

/-! ## Helper lemmas -/

theorem writeRun_length {α : Type} (xs : List α) : ∀ (buf : List α) (pos : Nat),
    (writeRun buf pos xs).length = buf.length := by
  induction xs with
  | nil => intro buf pos; rfl
  | cons x rest ih =>
    intro buf pos
    simp only [writeRun, ih, List.length_set]

theorem writeRun_getElem_lt {α : Type} (xs : List α) :
    ∀ (buf : List α) (pos i : Nat), i < pos →
      (writeRun buf pos xs)[i]? = buf[i]? := by
  induction xs with
  | nil => intro buf pos i _; rfl
  | cons x rest ih =>
    intro buf pos i hi
    simp only [writeRun]
    rw [ih _ _ _ (by omega), List.getElem?_set_ne (by omega)]

theorem writeRun_getElem_ge {α : Type} (xs : List α) :
    ∀ (buf : List α) (pos i : Nat), pos + xs.length ≤ i →
      (writeRun buf pos xs)[i]? = buf[i]? := by
  induction xs with
  | nil => intro buf pos i _; rfl
  | cons x rest ih =>
    intro buf pos i hi
    simp only [List.length_cons] at hi
    simp only [writeRun]
    rw [ih _ _ _ (by omega), List.getElem?_set_ne (by omega)]

theorem writeRun_getElem_in {α : Type} (xs : List α) :
    ∀ (buf : List α) (pos j : Nat), j < xs.length → pos + xs.length ≤ buf.length →
      (writeRun buf pos xs)[pos + j]? = xs[j]? := by
  induction xs with
  | nil => intro buf pos j hj _; simp at hj
  | cons x rest ih =>
    intro buf pos j hj hlen
    simp only [List.length_cons] at hj hlen
    simp only [writeRun]
    cases j with
    | zero =>
      rw [writeRun_getElem_lt rest _ _ _ (by omega)]
      simp only [Nat.add_zero, List.getElem?_cons_zero]
      exact List.getElem?_set_eq_of_lt x (by omega)
    | succ j1 =>
      have e : pos + (j1 + 1) = (pos + 1) + j1 := by omega
      rw [e, ih _ _ _ (by omega) (by rw [List.length_set]; omega)]
      simp

theorem read_space_eq {α : Type} (s : RB α) (h : WF s) :
    read_space s = (s.wptr + s.size - s.rptr) % s.size := by
  obtain ⟨hlen, hw, hr, hpos, hu⟩ := h
  unfold read_space
  by_cases h1 : s.wptr > s.rptr
  · rw [if_pos h1]
    have e : s.wptr + s.size - s.rptr = (s.wptr - s.rptr) + s.size := by omega
    rw [e, Nat.add_mod_right, Nat.mod_eq_of_lt (by omega)]
  · rw [if_neg h1]
    by_cases h2 : s.wptr < s.rptr
    · rw [if_pos h2]
      have e : s.wptr + u64 - s.rptr + s.size = (s.wptr + s.size - s.rptr) + u64 := by
        omega
      rw [e, Nat.add_mod_right, Nat.mod_eq_of_lt (show s.wptr + s.size - s.rptr < u64 by omega)]
    · rw [if_neg h2]
      have e : s.wptr = s.rptr := by omega
      rw [e]
      have e2 : s.rptr + s.size - s.rptr = s.size := by omega
      rw [e2, Nat.mod_self]

theorem write_space_eq {α : Type} (s : RB α) (h : WF s) :
    write_space s = s.size - 1 - read_space s := by
  have hr := read_space_eq s h
  obtain ⟨hlen, hw, hrp, hpos, hu⟩ := h
  unfold write_space
  by_cases h1 : s.wptr > s.rptr
  · rw [if_pos h1, hr]
    have e : s.rptr + u64 - s.wptr + s.size = (s.rptr + s.size - s.wptr) + u64 := by
      omega
    rw [e, Nat.add_mod_right,
      Nat.mod_eq_of_lt (show s.rptr + s.size - s.wptr < u64 by omega),
      Nat.mod_eq_of_lt (show s.rptr + s.size - s.wptr < s.size by omega)]
    have e2 : s.wptr + s.size - s.rptr = (s.wptr - s.rptr) + s.size := by omega
    rw [e2, Nat.add_mod_right, Nat.mod_eq_of_lt (show s.wptr - s.rptr < s.size by omega)]
    omega
  · rw [if_neg h1]
    by_cases h2 : s.wptr < s.rptr
    · rw [if_pos h2, hr,
        Nat.mod_eq_of_lt (show s.wptr + s.size - s.rptr < s.size by omega)]
      omega
    · rw [if_neg h2, hr]
      have e : s.wptr = s.rptr := by omega
      rw [e]
      have e2 : s.rptr + s.size - s.rptr = s.size := by omega
      rw [e2, Nat.mod_self]
      omega

theorem read_space_lt {α : Type} (s : RB α) (h : WF s) : read_space s < s.size := by
  rw [read_space_eq s h]
  exact Nat.mod_lt _ h.2.2.2.1

theorem space_sum {α : Type} (s : RB α) (h : WF s) :
    read_space s + write_space s = s.size - 1 := by
  have h1 := write_space_eq s h
  have h2 := read_space_lt s h
  omega

theorem rptr_add_read_space {α : Type} (s : RB α) (h : WF s) :
    (s.rptr + read_space s) % s.size = s.wptr := by
  have hr := read_space_eq s h
  obtain ⟨hlen, hw, hrp, hpos, hu⟩ := h
  rw [hr]
  have h1 : (s.rptr + (s.wptr + s.size - s.rptr) % s.size) % s.size
      = (s.rptr + (s.wptr + s.size - s.rptr)) % s.size :=
    Nat.ModEq.add_left s.rptr (Nat.mod_modEq _ _)
  rw [h1]
  have e : s.rptr + (s.wptr + s.size - s.rptr) = s.wptr + s.size := by omega
  rw [e, Nat.add_mod_right, Nat.mod_eq_of_lt hw]

theorem capExpAux_le (fuel : Nat) : ∀ (n p : Nat), capExpAux fuel n p ≤ p + fuel := by
  induction fuel with
  | zero => intro n p; simp [capExpAux]
  | succ f ih =>
    intro n p
    simp only [capExpAux]
    by_cases h : 2 ^ p < n
    · rw [if_pos h]
      have := ih n (p + 1)
      omega
    · rw [if_neg h]
      omega

theorem mkRB_WF {α : Type} (n : Nat) (init : α) : WF (mkRB n init) := by
  have hexp : capExp n ≤ 64 := by
    have := capExpAux_le 63 n 1
    unfold capExp
    omega
  have hpos : 0 < 2 ^ capExp n := pow_pos (by omega) _
  have hle : 2 ^ capExp n ≤ u64 := by
    have := Nat.pow_le_pow_right (show 1 ≤ 2 by omega) hexp
    simpa [u64] using this
  refine ⟨?_, ?_, ?_, ?_, ?_⟩ <;> (simp [mkRB]; try omega)

theorem rbPush_pres {α : Type} (s : RB α) (src : List α) (cnt : Nat) (h : WF s) :
    WF (rbPush s src cnt).1 ∧ (rbPush s src cnt).1.size = s.size
      ∧ (rbPush s src cnt).1.rptr = s.rptr := by
  obtain ⟨hlen, hw, hr, hpos, hu⟩ := h
  simp only [rbPush]
  split_ifs
  all_goals refine ⟨⟨?_, ?_, ?_, ?_, ?_⟩, rfl, rfl⟩
  all_goals first
    | exact hlen
    | exact hw
    | exact hr
    | exact hpos
    | exact hu
    | exact Nat.mod_lt _ hpos
    | simp [writeRun_length, hlen]

theorem popRuns_pres {α : Type} (s : RB α) (cnt : Nat) (h : WF s) :
    WF (popRuns s cnt).2.2 ∧ (popRuns s cnt).2.2.size = s.size
      ∧ (popRuns s cnt).2.2.wptr = s.wptr ∧ (popRuns s cnt).2.2.buf = s.buf := by
  obtain ⟨hlen, hw, hr, hpos, hu⟩ := h
  simp only [popRuns]
  split_ifs
  all_goals refine ⟨⟨?_, ?_, ?_, ?_, ?_⟩, rfl, rfl, rfl⟩
  all_goals first
    | exact hlen
    | exact hw
    | exact hr
    | exact hpos
    | exact hu
    | exact Nat.mod_lt _ hpos

theorem rbAdvance_pres {α : Type} (s : RB α) (cnt : Nat) (h : WF s) :
    WF (rbAdvance s cnt).1 ∧ (rbAdvance s cnt).1.size = s.size
      ∧ (rbAdvance s cnt).1.wptr = s.wptr ∧ (rbAdvance s cnt).1.buf = s.buf := by
  obtain ⟨hlen, hw, hr, hpos, hu⟩ := h
  exact ⟨⟨hlen, hw, Nat.mod_lt _ hpos, hpos, hu⟩, rfl, rfl, rfl⟩

theorem rbFlush_pres {α : Type} (s : RB α) (cnt : Nat) (h : WF s) :
    WF (rbFlush s cnt).1 ∧ (rbFlush s cnt).1.size = s.size
      ∧ (rbFlush s cnt).1.wptr = s.wptr ∧ (rbFlush s cnt).1.buf = s.buf := by
  obtain ⟨hlen, hw, hr, hpos, hu⟩ := h
  simp only [rbFlush]
  split_ifs
  all_goals refine ⟨⟨?_, ?_, ?_, ?_, ?_⟩, rfl, rfl, rfl⟩
  all_goals first
    | exact hlen
    | exact hw
    | exact hr
    | exact hpos
    | exact hu
    | exact Nat.mod_lt _ hpos

theorem write_space_lt {α : Type} (s : RB α) (h : WF s) : write_space s < s.size := by
  have h1 := space_sum s h
  have h2 := read_space_lt s h
  have h3 := h.2.2.2.1
  omega

theorem rbPush_spec {α : Type} (s : RB α) (src : List α) (cnt : Nat)
    (h : WF s) (hsrc : cnt ≤ src.length) :
    (rbPush s src cnt).2 = min cnt (write_space s)
    ∧ (rbPush s src cnt).1.wptr = (s.wptr + min cnt (write_space s)) % s.size
    ∧ (∀ j, j < min cnt (write_space s) →
        (rbPush s src cnt).1.buf[(s.wptr + j) % s.size]? = src[j]?)
    ∧ (∀ i, i < s.size →
        (∀ j, j < min cnt (write_space s) → i ≠ (s.wptr + j) % s.size) →
        (rbPush s src cnt).1.buf[i]? = s.buf[i]?) := by
  have hws : write_space s < s.size := write_space_lt s h
  obtain ⟨hlen, hw, hr, hpos, hu⟩ := h
  simp only [rbPush]
  have hminE : (if cnt > write_space s then write_space s else cnt)
      = min cnt (write_space s) := by
    split_ifs <;> omega
  rw [hminE]
  have htw_le : min cnt (write_space s) ≤ write_space s := Nat.min_le_right _ _
  have htw_src : min cnt (write_space s) ≤ src.length :=
    le_trans (Nat.min_le_left _ _) hsrc
  by_cases h0 : write_space s = 0
  · rw [if_pos h0]
    have htw0 : min cnt (write_space s) = 0 := by omega
    refine ⟨by omega, ?_, ?_, ?_⟩
    · rw [htw0, Nat.add_zero, Nat.mod_eq_of_lt hw]
    · intro j hj
      rw [htw0] at hj
      exact absurd hj (by omega)
    · intro i _ _
      rfl
  · rw [if_neg h0]
    by_cases hwrap : s.wptr + min cnt (write_space s) > s.size
    · -- the copy wraps: two runs
      have hn2eq : (s.wptr + min cnt (write_space s)) % s.size
          = s.wptr + min cnt (write_space s) - s.size := by
        rw [Nat.mod_eq_sub_mod (by omega)]
        exact Nat.mod_eq_of_lt (by omega)
      have hn2pos : ¬ (s.wptr + min cnt (write_space s)) % s.size = 0 := by
        rw [hn2eq]; omega
      simp only [if_pos hwrap, if_neg hn2pos]
      have hw1 : (s.wptr + (s.size - s.wptr)) % s.size = 0 := by
        have e : s.wptr + (s.size - s.wptr) = s.size := by omega
        rw [e, Nat.mod_self]
      rw [hw1]
      set R1 := List.take (s.size - s.wptr) src with hR1def
      set R2 := List.take ((s.wptr + min cnt (write_space s)) % s.size)
        (List.drop (s.size - s.wptr) src) with hR2def
      set B1 := writeRun s.buf s.wptr R1 with hB1def
      have hlt1 : R1.length = s.size - s.wptr := by
        rw [hR1def, List.length_take]; omega
      have hlen1 : B1.length = s.size := by
        rw [hB1def, writeRun_length, hlen]
      have hlt2 : R2.length = s.wptr + min cnt (write_space s) - s.size := by
        rw [hR2def, List.length_take, List.length_drop, hn2eq]; omega
      refine ⟨by trivial, ?_, ?_, ?_⟩
      · rw [Nat.zero_add, Nat.mod_eq_of_lt (Nat.mod_lt _ hpos)]
      · intro j hj
        by_cases hj1 : j < s.size - s.wptr
        · have hjs : s.wptr + j < s.size := by omega
          rw [Nat.mod_eq_of_lt hjs]
          have hge1 : (0:Nat) + R2.length ≤ s.wptr + j := by rw [hlt2]; omega
          rw [writeRun_getElem_ge R2 B1 0 (s.wptr + j) hge1]
          have hin1 : j < R1.length := by rw [hlt1]; omega
          have hb1 : s.wptr + R1.length ≤ s.buf.length := by rw [hlt1, hlen]; omega
          rw [hB1def, writeRun_getElem_in R1 s.buf s.wptr j hin1 hb1]
          rw [hR1def, List.getElem?_take]
          simp [hj1]
        · have hidx : s.wptr + j = s.size + (j - (s.size - s.wptr)) := by omega
          rw [hidx, Nat.add_mod_left, Nat.mod_eq_of_lt (by omega)]
          have hin2 : j - (s.size - s.wptr) < R2.length := by rw [hlt2]; omega
          have hb2 : (0:Nat) + R2.length ≤ B1.length := by rw [hlt2, hlen1]; omega
          have hzin := writeRun_getElem_in R2 B1 0 (j - (s.size - s.wptr)) hin2 hb2
          rw [Nat.zero_add] at hzin
          rw [hzin, hR2def, List.getElem?_take]
          have hcond : j - (s.size - s.wptr)
              < (s.wptr + min cnt (write_space s)) % s.size := by
            rw [hn2eq]; omega
          rw [if_pos hcond, List.getElem?_drop]
          have e3 : s.size - s.wptr + (j - (s.size - s.wptr)) = j := by omega
          rw [e3]
      · intro i hi hni
        have hi1 : i < s.wptr := by
          by_contra hcon
          exact hni (i - s.wptr) (by omega)
            (by rw [Nat.mod_eq_of_lt (by omega)]; omega)
        have hi2 : s.wptr + min cnt (write_space s) - s.size ≤ i := by
          by_contra hcon
          refine hni (s.size - s.wptr + i) (by omega) ?_
          have e : s.wptr + (s.size - s.wptr + i) = s.size + i := by omega
          rw [e, Nat.add_mod_left, Nat.mod_eq_of_lt (by omega)]
        have hge2 : (0:Nat) + R2.length ≤ i := by rw [hlt2]; omega
        rw [writeRun_getElem_ge R2 B1 0 i hge2]
        rw [hB1def, writeRun_getElem_lt R1 s.buf s.wptr i hi1]
    · -- no wrap: a single run
      simp only [if_neg hwrap, if_true]
      set R1 := List.take (min cnt (write_space s)) src with hR1def
      have hlt1 : R1.length = min cnt (write_space s) := by
        rw [hR1def, List.length_take]; omega
      refine ⟨by trivial, by trivial, ?_, ?_⟩
      · intro j hj
        have hjs : s.wptr + j < s.size := by omega
        rw [Nat.mod_eq_of_lt hjs]
        have hin1 : j < R1.length := by rw [hlt1]; omega
        have hb1 : s.wptr + R1.length ≤ s.buf.length := by rw [hlt1, hlen]; omega
        rw [writeRun_getElem_in R1 s.buf s.wptr j hin1 hb1]
        rw [hR1def, List.getElem?_take]
        simp [hj]
      · intro i hi hni
        rcases Nat.lt_or_ge i s.wptr with h1 | h1
        · rw [writeRun_getElem_lt R1 s.buf s.wptr i h1]
        · have h2 : s.wptr + min cnt (write_space s) ≤ i := by
            by_contra hcon
            exact hni (i - s.wptr) (by omega)
              (by rw [Nat.mod_eq_of_lt (by omega)]; omega)
          have hge1 : s.wptr + R1.length ≤ i := by rw [hlt1]; omega
          rw [writeRun_getElem_ge R1 s.buf s.wptr i hge1]

theorem rbAdvance_zero_spec {α : Type} (s : RB α) (h : WF s) :
    (rbAdvance s 0).2 = read_space s ∧ read_space (rbAdvance s 0).1 = 0 := by
  have hWF1 : WF (rbAdvance s 0).1 := (rbAdvance_pres s 0 h).1
  constructor
  · simp [rbAdvance]
  · rw [read_space_eq _ hWF1]
    simp only [rbAdvance, if_true]
    rw [rptr_add_read_space s h]
    have e : s.wptr + s.size - s.wptr = s.size := by omega
    rw [e, Nat.mod_self]

theorem popRuns_zero_spec {α : Type} (s : RB α) (h : WF s) :
    (popRuns s 0).2.1 = read_space s ∧ read_space (popRuns s 0).2.2 = 0 := by
  have hWF1 : WF (popRuns s 0).2.2 := (popRuns_pres s 0 h).1
  have hrs : read_space s < s.size := read_space_lt s h
  obtain ⟨hlen, hw, hr, hpos, hu⟩ := h
  by_cases h0 : read_space s = 0
  · constructor
    · simp [popRuns, h0]
    · have e : (popRuns s 0).2.2 = s := by simp [popRuns, h0]
      rw [e]
      exact h0
  · have hrptr : (popRuns s 0).2.2.rptr = (s.rptr + read_space s) % s.size
        ∧ (popRuns s 0).2.2.wptr = s.wptr ∧ (popRuns s 0).2.2.size = s.size
        ∧ (popRuns s 0).2.1 = read_space s := by
      simp only [popRuns, if_true, if_neg h0]
      by_cases hwrap : s.rptr + read_space s > s.size
      · have hn2eq : (s.rptr + read_space s) % s.size
            = s.rptr + read_space s - s.size := by
          rw [Nat.mod_eq_sub_mod (by omega)]
          exact Nat.mod_eq_of_lt (by omega)
        have hn2pos : ¬ (s.rptr + read_space s) % s.size = 0 := by
          rw [hn2eq]; omega
        simp only [if_pos hwrap, if_neg hn2pos]
        have hr1 : (s.rptr + (s.size - s.rptr)) % s.size = 0 := by
          have e : s.rptr + (s.size - s.rptr) = s.size := by omega
          rw [e, Nat.mod_self]
        rw [hr1]
        refine ⟨?_, by trivial, by trivial, by trivial⟩
        rw [Nat.zero_add, Nat.mod_eq_of_lt (Nat.mod_lt _ hpos)]
      · simp only [if_neg hwrap, if_true]
        exact ⟨by trivial, by trivial, by trivial, by trivial⟩
    constructor
    · exact hrptr.2.2.2
    · rw [read_space_eq _ hWF1, hrptr.1, hrptr.2.1, hrptr.2.2.1,
        rptr_add_read_space s ⟨hlen, hw, hr, hpos, hu⟩]
      have e : s.wptr + s.size - s.wptr = s.size := by omega
      rw [e, Nat.mod_self]

theorem step_pres {α : Type} (s : RB α) (op : Op α) (h : WF s) :
    WF (step s op) ∧ (step s op).size = s.size := by
  cases op with
  | push src cnt => exact ⟨(rbPush_pres s src cnt h).1, (rbPush_pres s src cnt h).2.1⟩
  | popd cnt => exact ⟨(popRuns_pres s cnt h).1, (popRuns_pres s cnt h).2.1⟩
  | popv cnt => exact ⟨(popRuns_pres s cnt h).1, (popRuns_pres s cnt h).2.1⟩
  | adv cnt => exact ⟨(rbAdvance_pres s cnt h).1, (rbAdvance_pres s cnt h).2.1⟩
  | fl cnt => exact ⟨(rbFlush_pres s cnt h).1, (rbFlush_pres s cnt h).2.1⟩

theorem run_pres {α : Type} (ops : List (Op α)) : ∀ (s : RB α), WF s →
    WF (run s ops) ∧ (run s ops).size = s.size := by
  induction ops with
  | nil => intro s h; exact ⟨h, rfl⟩
  | cons op rest ih =>
    intro s h
    have h1 := step_pres s op h
    have h2 := ih (step s op) h1.1
    simp only [run, List.foldl_cons] at h2 ⊢
    exact ⟨h2.1, h2.2.trans h1.2⟩

theorem popDest_proj {α : Type} (s : RB α) (dest : List α) (cnt : Nat) :
    (popDest s dest cnt).2.1 = (popRuns s cnt).2.1
    ∧ (popDest s dest cnt).2.2 = (popRuns s cnt).2.2 := by
  rcases hpr : popRuns s cnt with ⟨runs, ret, st⟩
  simp [popDest, hpr]

/-! ## Claim theorems -/

/-- Claim C1 (code_bug evaluation): on a wrapped two-run pop, the visitor
form delivers the runs `[1]` then `[2]` (reassembling the pushed sequence),
but the destination-copy form leaves `dest = [2, 0]`: `detail::memcopier`
never advances its destination pointer, so the second run overwrites the
first instead of following it, and the original sequence `[1, 2]` is NOT
reproduced. -/
theorem pop_dest_wrap_bug_eval :
    (popRuns rbWrapState 2).1 = [[1], [2]]
    ∧ (popRuns rbWrapState 2).2.1 = 2
    ∧ (popDest rbWrapState [0, 0] 2).1 = [2, 0]
    ∧ (popDest rbWrapState [0, 0] 2).1 ≠ [1, 2] := by decide

/-- Claim C2: after any sequence of push/pop/advance/flush operations on a
`Ringbuffer<T>` built by the constructor, `read_space() + write_space()`
equals `capacity - 1`, where the capacity is the power of two chosen at
construction. -/
theorem ringbuffer_space_invariant {α : Type} (n : Nat) (init : α)
    (ops : List (Op α)) :
    read_space (run (mkRB n init) ops) + write_space (run (mkRB n init) ops)
      = (run (mkRB n init) ops).size - 1
    ∧ (run (mkRB n init) ops).size = 2 ^ capExp n := by
  have h := run_pres ops (mkRB n init) (mkRB_WF n init)
  exact ⟨space_sum _ h.1, h.2⟩

/-- Claim C3 (code_bug evaluation): popping ONE channel of a requested
two-channel period already advances the underlying read pointer past the
whole period (offset 0 to 20) although one channel is still owed
(`chans_to_read = 1`): the source gates the advance on
`_chans_to_write == 0` instead of the read-side counter. -/
theorem period_pop_early_advance_eval :
    prbPop1.1 = .ok [Cell.samp 1, Cell.samp 2]
    ∧ prbPop1.2.chans_to_read = 1
    ∧ prbStage4.ring.rptr = 0
    ∧ prbPop1.2.ring.rptr = 20 := by decide

/-- Claim C4 (code_bug evaluation): a fully pushed two-channel period
`(time 0, nbytes 2, channels [1,2] and [3,4])` is requested with the right
header, but the second pop returns the contents of never-written storage
instead of channel 1's bytes `[3, 4]`, because the read pointer moved after
the first pop. -/
theorem period_roundtrip_bug_eval :
    (request prbStage3).1 = .ok (some ⟨0, 2, 2⟩)
    ∧ prbPop1.1 = .ok [Cell.samp 1, Cell.samp 2]
    ∧ prbPop2.1 = .ok [Cell.uninit, Cell.uninit]
    ∧ prbPop2.1 ≠ .ok [Cell.samp 3, Cell.samp 4] := by decide

/-- Claim C5: every out-of-protocol call on a `period_ringbuffer` — reserve
during an incomplete reservation, push with no outstanding reservation,
request during an incomplete request, pop (either form) with no
outstanding request — returns the distinguishable logic error and leaves
the state unchanged. -/
theorem period_protocol_faults (s : PRB) (t nb nc : Nat) (src : List Int) :
    ((s.chans_to_write ≠ 0 ∨ s.write_hdr ≠ none) →
        reserve s t nb nc = (.logicError, s))
    ∧ ((s.chans_to_write = 0 ∨ s.write_hdr = none) →
        pushPRB s src = (.logicError, s))
    ∧ ((s.chans_to_read ≠ 0 ∨ s.read_hdr ≠ none) →
        request s = (.logicError, s))
    ∧ ((s.chans_to_read = 0 ∨ s.read_hdr = none) →
        popPRB s = (.logicError, s))
    ∧ ((s.chans_to_read = 0 ∨ s.read_hdr = none) →
        popVisPRB s = (.logicError, s)) := by
  refine ⟨?_, ?_, ?_, ?_, ?_⟩ <;> intro h
  · simp only [reserve]
    rw [if_pos h]
  · simp only [pushPRB]
    rw [if_pos h]
  · simp only [request]
    rw [if_pos h]
  · simp only [popPRB]
    rw [if_pos h]
  · simp only [popVisPRB]
    rw [if_pos h]

/-- Witness for C5 at a concrete state with an incomplete reservation
(`chans_to_write = 1`), no header reserved, an incomplete request
(`chans_to_read = 1`), and no header requested. -/
theorem period_protocol_faults_witness :
    reserve prbFaultState 1 2 3 = (.logicError, prbFaultState)
    ∧ pushPRB prbFaultState [0] = (.logicError, prbFaultState)
    ∧ request prbFaultState = (.logicError, prbFaultState)
    ∧ popPRB prbFaultState = (.logicError, prbFaultState)
    ∧ popVisPRB prbFaultState = (.logicError, prbFaultState) := by
  have h := period_protocol_faults prbFaultState 1 2 3 [0]
  exact ⟨h.1 (Or.inl (by decide)), h.2.1 (Or.inr (by decide)),
    h.2.2.1 (Or.inl (by decide)), h.2.2.2.1 (Or.inr (by decide)),
    h.2.2.2.2 (Or.inr (by decide))⟩

/-- Claim C6: with no reservation outstanding, `reserve(time, nbytes,
nchannels)` returns 0 and leaves the state unchanged exactly when the
write space is smaller than one full period
(`headerSize + nbytes*nchannels*sampleSize`); otherwise it returns the
nonzero chunk count, writes the header in place at the current write
offset, and records `nchannels` owed channel-writes. -/
theorem period_reserve_spec (s : PRB) (t nb nc : Nat)
    (h1 : s.chans_to_write = 0) (h2 : s.write_hdr = none)
    (hoff : s.ring.wptr + headerSize ≤ s.ring.buf.length) :
    ((reserve s t nb nc).1 = .ok 0 ∧ (reserve s t nb nc).2 = s
        ↔ write_space s.ring < headerSize + nb * nc * sampleSize)
    ∧ (headerSize + nb * nc * sampleSize ≤ write_space s.ring →
        (reserve s t nb nc).1
            = .ok (write_space s.ring / (headerSize + nb * nc * sampleSize))
        ∧ write_space s.ring / (headerSize + nb * nc * sampleSize) ≠ 0
        ∧ hdrAt (reserve s t nb nc).2.ring.buf s.ring.wptr = ⟨t, nb, nc⟩
        ∧ (reserve s t nb nc).2.chans_to_write = nc
        ∧ (reserve s t nb nc).2.write_hdr = some s.ring.wptr) := by
  have hguard : ¬ (s.chans_to_write ≠ 0 ∨ s.write_hdr ≠ none) := by
    simp [h1, h2]
  have hhs : headerSize = 16 := rfl
  have hchunk : 0 < headerSize + nb * nc * sampleSize := by omega
  simp only [reserve]
  rw [if_neg hguard]
  by_cases hlt : write_space s.ring / (headerSize + nb * nc * sampleSize) < 1
  · rw [if_pos hlt]
    have hsmall : write_space s.ring < headerSize + nb * nc * sampleSize := by
      rcases Nat.lt_or_ge (write_space s.ring) (headerSize + nb * nc * sampleSize)
        with h | h
      · exact h
      · exfalso
        have := Nat.div_le_div_right (c := headerSize + nb * nc * sampleSize) h
        rw [Nat.div_self hchunk] at this
        omega
    refine ⟨⟨fun _ => hsmall, fun _ => ⟨rfl, rfl⟩⟩, fun hge => absurd hge (by omega)⟩
  · rw [if_neg hlt]
    have hge : headerSize + nb * nc * sampleSize ≤ write_space s.ring := by
      rcases Nat.lt_or_ge (write_space s.ring) (headerSize + nb * nc * sampleSize)
        with h | h
      · exfalso
        rw [Nat.div_eq_of_lt h] at hlt
        omega
      · exact h
    constructor
    · constructor
      · rintro ⟨ha, _⟩
        exfalso
        simp only [PRes.ok.injEq] at ha
        omega
      · intro hcon
        exact absurd hcon (by omega)
    · intro _
      have hxs : (Cell.hd (⟨t, nb, nc⟩ : PInfo)
          :: List.replicate (headerSize - 1) Cell.pad).length = headerSize := by
        simp [List.length_replicate]
        omega
      have hget := writeRun_getElem_in
        (Cell.hd (⟨t, nb, nc⟩ : PInfo) :: List.replicate (headerSize - 1) Cell.pad)
        s.ring.buf s.ring.wptr 0 (by simp) (by rw [hxs]; omega)
      rw [Nat.add_zero] at hget
      refine ⟨rfl, by omega, ?_, rfl, rfl⟩
      simp only [hdrAt, writeHdr]
      rw [hget]
      simp

/-- Witness for C6 on a fresh `period_ringbuffer(64)` and the period shape
`(time 7, nbytes 2, nchannels 2)`. -/
theorem period_reserve_spec_witness :
    (mkPRB 64).chans_to_write = 0
    ∧ (mkPRB 64).write_hdr = none
    ∧ (mkPRB 64).ring.wptr + headerSize ≤ (mkPRB 64).ring.buf.length
    ∧ (((reserve (mkPRB 64) 7 2 2).1 = .ok 0 ∧ (reserve (mkPRB 64) 7 2 2).2 = mkPRB 64
          ↔ write_space (mkPRB 64).ring < headerSize + 2 * 2 * sampleSize)
       ∧ (headerSize + 2 * 2 * sampleSize ≤ write_space (mkPRB 64).ring →
          (reserve (mkPRB 64) 7 2 2).1
              = .ok (write_space (mkPRB 64).ring / (headerSize + 2 * 2 * sampleSize))
          ∧ write_space (mkPRB 64).ring / (headerSize + 2 * 2 * sampleSize) ≠ 0
          ∧ hdrAt (reserve (mkPRB 64) 7 2 2).2.ring.buf (mkPRB 64).ring.wptr
              = ⟨7, 2, 2⟩
          ∧ (reserve (mkPRB 64) 7 2 2).2.chans_to_write = 2
          ∧ (reserve (mkPRB 64) 7 2 2).2.write_hdr = some (mkPRB 64).ring.wptr)) :=
  ⟨by decide, by decide, by decide,
    period_reserve_spec (mkPRB 64) 7 2 2 (by decide) (by decide) (by decide)⟩

/-- Claim C7: `push(src, cnt)` writes exactly `min cnt (write_space())`
elements of `src`, in order, at consecutive (modulo capacity, hence at most
two contiguous runs) positions starting at the write index, leaves every
other slot untouched, advances the write index by that amount, and returns
it; a short or zero write is an ordinary return value. -/
theorem ringbuffer_push_copies_min {α : Type} (n : Nat) (init : α)
    (ops : List (Op α)) (src : List α) (cnt : Nat) (hsrc : cnt ≤ src.length) :
    let s := run (mkRB n init) ops
    (rbPush s src cnt).2 = min cnt (write_space s)
    ∧ (rbPush s src cnt).1.wptr = (s.wptr + min cnt (write_space s)) % s.size
    ∧ (∀ j, j < min cnt (write_space s) →
        (rbPush s src cnt).1.buf[(s.wptr + j) % s.size]? = src[j]?)
    ∧ (∀ i, i < s.size →
        (∀ j, j < min cnt (write_space s) → i ≠ (s.wptr + j) % s.size) →
        (rbPush s src cnt).1.buf[i]? = s.buf[i]?) :=
  rbPush_spec _ src cnt (run_pres ops _ (mkRB_WF n init)).1 hsrc

/-- Witness for C7: pushing `[5, 6]` into a capacity-4 buffer with
`wptr = 3`, `rptr = 2` (wrapping write). -/
theorem ringbuffer_push_copies_min_witness :
    2 ≤ ([5, 6] : List Nat).length
    ∧ (let s := run (mkRB 4 (0 : Nat)) [Op.push [7, 8, 9] 3, Op.adv 2]
       (rbPush s [5, 6] 2).2 = min 2 (write_space s)
       ∧ (rbPush s [5, 6] 2).1.wptr = (s.wptr + min 2 (write_space s)) % s.size
       ∧ (∀ j, j < min 2 (write_space s) →
           (rbPush s [5, 6] 2).1.buf[(s.wptr + j) % s.size]? = [5, 6][j]?)
       ∧ (∀ i, i < s.size →
           (∀ j, j < min 2 (write_space s) → i ≠ (s.wptr + j) % s.size) →
           (rbPush s [5, 6] 2).1.buf[i]? = s.buf[i]?)) :=
  ⟨by decide,
    ringbuffer_push_copies_min 4 0 [Op.push [7, 8, 9] 3, Op.adv 2] [5, 6] 2
      (by decide)⟩

/-- Claim C8 (code_bug evaluation): `flush(1)` on an empty buffer
(`read_space() = 0 < 1`) returns the wrapped-around value `2^64 - 1` and
moves the read pointer from 0 to 3, making `read_space()` equal 1: the
unsigned `to_flush = read_space() - cnt` wraps below zero and the guard
`to_flush <= 0` cannot catch it, contrary to the claim (and to the
function's own documentation) that nothing is discarded and 0 returned. -/
theorem flush_underflow_eval :
    read_space (mkRB 4 (0 : Nat)) = 0
    ∧ (rbFlush (mkRB 4 (0 : Nat)) 1).2 = 2 ^ 64 - 1
    ∧ (rbFlush (mkRB 4 (0 : Nat)) 1).1.rptr = 3
    ∧ read_space (rbFlush (mkRB 4 (0 : Nat)) 1).1 = 1 := by decide

/-- Claim C9: one update of the trigger gate counts crossings against the
current state's threshold, overwrites the current state's circular history
at its cursor (leaving the other history untouched), advances that cursor
modulo the window length, and moves closed-to-open exactly when the window
sum reaches `crossings_per_open_window`, open-to-closed exactly when the
window sum falls below `crossings_per_close_window`; the resulting state is
returned. -/
theorem trigger_update_spec (tg : Trigger) (buf : List Int) :
    (triggerUpdate tg buf).2 = (triggerUpdate tg buf).1.isOpen
    ∧ (if tg.isOpen then
        (triggerUpdate tg buf).1.ncloseCrossings
            = tg.ncloseCrossings.set tg.closeIdx
                (countCrossings tg.closeThreshold buf)
        ∧ (triggerUpdate tg buf).1.closeIdx
            = (tg.closeIdx + 1) % tg.ncloseCrossings.length
        ∧ (triggerUpdate tg buf).1.nopenCrossings = tg.nopenCrossings
        ∧ (triggerUpdate tg buf).1.openIdx = tg.openIdx
        ∧ ((triggerUpdate tg buf).1.isOpen = true
            ↔ tg.crossingsPerCloseWindow
                ≤ (tg.ncloseCrossings.set tg.closeIdx
                    (countCrossings tg.closeThreshold buf)).sum)
      else
        (triggerUpdate tg buf).1.nopenCrossings
            = tg.nopenCrossings.set tg.openIdx
                (countCrossings tg.openThreshold buf)
        ∧ (triggerUpdate tg buf).1.openIdx
            = (tg.openIdx + 1) % tg.nopenCrossings.length
        ∧ (triggerUpdate tg buf).1.ncloseCrossings = tg.ncloseCrossings
        ∧ (triggerUpdate tg buf).1.closeIdx = tg.closeIdx
        ∧ ((triggerUpdate tg buf).1.isOpen = true
            ↔ tg.crossingsPerOpenWindow
                ≤ (tg.nopenCrossings.set tg.openIdx
                    (countCrossings tg.openThreshold buf)).sum)) := by
  by_cases h : tg.isOpen <;> simp [triggerUpdate, h]

/-- Claim C10: `advance(0)`, `pop(visitor, 0)` and `pop(dest, 0)` all
consume everything available: they return the entry `read_space()` and
leave `read_space() = 0`. -/
theorem ringbuffer_zero_count_drains {α : Type} (n : Nat) (init : α)
    (ops : List (Op α)) (dest : List α) :
    let s := run (mkRB n init) ops
    (rbAdvance s 0).2 = read_space s ∧ read_space (rbAdvance s 0).1 = 0
    ∧ (popRuns s 0).2.1 = read_space s ∧ read_space (popRuns s 0).2.2 = 0
    ∧ (popDest s dest 0).2.1 = read_space s
    ∧ read_space (popDest s dest 0).2.2 = 0 := by
  intro s
  have hWF := (run_pres ops (mkRB n init) (mkRB_WF n init)).1
  have h1 := rbAdvance_zero_spec _ hWF
  have h2 := popRuns_zero_spec _ hWF
  have h3 := popDest_proj (run (mkRB n init) ops) dest 0
  exact ⟨h1.1, h1.2, h2.1, h2.2, h3.1.trans h2.1, by rw [h3.2]; exact h2.2⟩

end JillModel
